import Mathlib

/-!
Shallow embedding of the barbershop discrete-event simulation
(`task_4.py`, class `Village` with nested `Resident` and `Barber`).

Modelling conventions:
* Python `float` clock values are embedded as exact rationals `ℚ`; no
  claim exercises floating-point rounding.
* A Python object is a slot of the village's resident list; object
  identity (`resident is self`) is index equality.
* `Barber` extends `Resident`; we embed the subclass as a `Resident`
  record carrying an optional `BarberState` (the fields `__shave_time`
  and `__busy_till` added by `Barber.__init__`).
* Python's `min(seq, key=...)` raises `ValueError("min() arg is an
  empty sequence")` on an empty sequence and otherwise returns the
  first element attaining the minimal key; we model it as an
  `Option`-valued index selection, with `none` standing for that
  `ValueError`, which `step` turns into an explicit `Except.error`.
* `KeyboardInterrupt` is modelled by an optional schedule `intr`:
  `some k` means the signal arrives when the loop is about to begin
  iteration `k` (iterations are atomic in the single-threaded source,
  one complete `shave` per loop entry).  The `try/except
  KeyboardInterrupt: pass` in `run` turns it into a normal return.
* The unbounded run (`count = -1`) with no interrupt diverges; `run`
  returns `Option`, with `none` for divergence.  With an interrupt at
  iteration `k` the loop provably performs at most `k + 1` entries, so
  that bound is used as the structural-recursion fuel of the loop.
-/

/-- Python exception values that the simulation can raise. -/
inductive PyErr where
  | valueError (msg : String)
  deriving DecidableEq, Repr

/-- State added by `Village.Barber.__init__`: `__shave_time` (time for
one shave) and `__busy_till` (initialised to 0). -/
structure BarberState where
  shave_time : ℚ
  busy_till : ℚ
  deriving DecidableEq, Repr

/-- A village inhabitant (`Village.Resident.__init__`): `__name`,
`__beard_growth_time`, `__last_shave_time` (initialised to 0), plus the
optional barber capability of the `Barber` subclass. -/
structure Resident where
  name : String
  beard_growth_time : ℚ
  last_shave_time : ℚ
  barberState : Option BarberState
  deriving DecidableEq, Repr

/-- One line of the textual log emitted by `Barber.shave`: the time,
the two names, and the two optional flags. -/
structure ShaveEvent where
  time : ℚ
  barberName : String
  residentName : String
  selfShave : Bool
  late : Bool
  deriving DecidableEq, Repr

/-- `Village.Resident(name, beard_growth_time)`: last shave time starts at 0. -/
def Resident.init (n : String) (bgt : ℚ) : Resident :=
  ⟨n, bgt, 0, none⟩

/-- `Village.Barber(name, beard_growth_time, shave_time)`: busy-till starts at 0. -/
def Barber.init (n : String) (bgt st : ℚ) : Resident :=
  ⟨n, bgt, 0, some ⟨st, 0⟩⟩

/-- `isinstance(r, Village.Barber)`. -/
def Resident.isBarber (r : Resident) : Bool :=
  r.barberState.isSome

/-- `Resident._get_next_shave_time`: `last_shave_time + beard_growth_time`. -/
def Resident.get_next_shave_time (r : Resident) : ℚ :=
  r.last_shave_time + r.beard_growth_time

/-- `Resident.set_last_shave_time`. -/
def Resident.set_last_shave_time (r : Resident) (t : ℚ) : Resident :=
  { r with last_shave_time := t }

/-- `Barber.busy_till` accessor (0 on a plain resident, which the source
never queries: the selection filters on `isinstance` first). -/
def Resident.busy_till (r : Resident) : ℚ :=
  match r.barberState with
  | some b => b.busy_till
  | none => 0

/-- The barber's `__shave_time` (0 on a plain resident, never queried there). -/
def Resident.shave_time (r : Resident) : ℚ :=
  match r.barberState with
  | some b => b.shave_time
  | none => 0

/-- Assignment `self.__busy_till = t` inside `Barber.shave`. -/
def Resident.setBusy (r : Resident) (t : ℚ) : Resident :=
  { r with barberState :=
      match r.barberState with
      | some b => some { b with busy_till := t }
      | none => none }

/-- Default used to make list indexing total; valid indices never hit it. -/
def dflt : Resident :=
  ⟨"", 0, 0, none⟩

namespace Village

/-- `Barber.shave(time, resident)` at barber index `bi` and resident index
`ri` of the village list: emits the log line (flags computed before the
mutations, as in the source), then sets the barber's `__busy_till` to
`time + __shave_time` and the resident's `__last_shave_time` to that new
busy-till value, in that order. -/
def shave (rs : List Resident) (bi ri : Nat) (t : ℚ) :
    List Resident × ShaveEvent :=
  let b := rs.getD bi dflt
  let r := rs.getD ri dflt
  let ev : ShaveEvent :=
    ⟨t, b.name, r.name, decide (ri = bi), decide (t ≠ r.get_next_shave_time)⟩
  let newBusy := t + b.shave_time
  let rs1 := rs.set bi (b.setBusy newBusy)
  let rs2 := rs1.set ri ((rs1.getD ri dflt).set_last_shave_time newBusy)
  (rs2, ev)

/-- Pair each list slot with its index (Python iteration order). -/
def idxFrom (i : Nat) : List Resident → List (Nat × Resident)
  | [] => []
  | r :: rest => (i, r) :: idxFrom (i + 1) rest

/-- Fold of Python's `min(x :: xs, key=key)`: the running minimum is
replaced only on a strictly smaller key, so the first element wins ties. -/
def pyMinFold (key : Nat × Resident → ℚ) (x : Nat × Resident)
    (xs : List (Nat × Resident)) : Nat × Resident :=
  xs.foldl (fun b y => if key y < key b then y else b) x

/-- Python `min(seq, key=...)` over an indexed sequence, returning the
index of the chosen object; `none` models the `ValueError` raised on an
empty sequence. -/
def pyMinIdx (key : Nat × Resident → ℚ) :
    List (Nat × Resident) → Option Nat
  | [] => none
  | x :: xs => some (pyMinFold key x xs).1

/-- `Village.get_next_shave`: `min(self.residents, key=next-shave-time)`. -/
def get_next_shave (rs : List Resident) : Option Nat :=
  pyMinIdx (fun p => p.2.get_next_shave_time) (idxFrom 0 rs)

/-- `Village.get_next_free_barber`:
`min([r for r in residents if isinstance(r, Barber)], key=busy_till)`. -/
def get_next_free_barber (rs : List Resident) : Option Nat :=
  pyMinIdx (fun p => p.2.busy_till) ((idxFrom 0 rs).filter (fun p => p.2.isBarber))

/-- The message of the `ValueError` Python's `min` raises on an empty sequence. -/
def emptySeqMsg : String :=
  "min() arg is an empty sequence"

/-- One iteration of the body of `Village.run`: select the due resident,
select the free barber (each selection raising `ValueError` when its
sequence is empty), compute `time = max(resident due time, barber
busy-till)` and perform the shave. -/
def step (rs : List Resident) : Except PyErr (List Resident × ShaveEvent) :=
  match get_next_shave rs with
  | none => .error (PyErr.valueError emptySeqMsg)
  | some ri =>
    match get_next_free_barber rs with
    | none => .error (PyErr.valueError emptySeqMsg)
    | some bi =>
      let t := max (rs.getD ri dflt).get_next_shave_time (rs.getD bi dflt).busy_till
      .ok (shave rs bi ri t)

/-- The `for i in self.__range(count)` loop of `run`, with the iteration
counter `i`, the accumulated log, the interrupt schedule, and the fuel
bounding the remaining loop entries.  A `KeyboardInterrupt` scheduled at
the current iteration is caught by the `except` clause: the loop returns
normally with the state and log as they stand. -/
def runLoop (intr : Option Nat) :
    List Resident → List ShaveEvent → Nat → Nat →
    Except PyErr (List Resident × List ShaveEvent)
  | rs, es, _, 0 => .ok (rs, es)
  | rs, es, i, fuel + 1 =>
    if intr = some i then .ok (rs, es)
    else
      match step rs with
      | .error e => .error e
      | .ok (rs', ev) => runLoop intr rs' (es ++ [ev]) (i + 1) fuel

/-- `Village.run(count)`: `count = -1` requests an unbounded run, any
other count breaks the generator once `i ≥ count`.  `intr` is the
interrupt schedule.  An unbounded uninterrupted run diverges (`none`).
With an interrupt at iteration `k` the loop performs at most `k + 1`
entries, which justifies the fuel; a bounded run performs at most
`count.toNat` entries. -/
def run (rs : List Resident) (count : Int) (intr : Option Nat) :
    Option (Except PyErr (List Resident × List ShaveEvent)) :=
  if count = -1 then
    match intr with
    | some k => some (runLoop intr rs [] 0 (k + 1))
    | none => none
  else
    some (runLoop intr rs [] 0 count.toNat)

/-- `Village.add_resident`. -/
def add_resident (rs : List Resident) (r : Resident) : List Resident :=
  rs ++ [r]

/-- The village has at least one barber. -/
def hasBarber (rs : List Resident) : Bool :=
  rs.any fun r => r.isBarber

/-- Every resident has strictly positive beard growth time and every
barber has strictly positive shave duration. -/
def AllPos (rs : List Resident) : Bool :=
  rs.all fun r =>
    decide (0 < r.beard_growth_time ∧ (r.isBarber = true → 0 < r.shave_time))

/-- The village seeded by the `__main__` driver: r1 (growth 2),
r2 (growth 4), barber b1 (growth 6, shave duration 1). -/
def demoVillage : List Resident :=
  add_resident
    (add_resident
      (add_resident [] (Resident.init "r1" 2))
      (Resident.init "r2" 4))
    (Barber.init "b1" 6 1)

end Village

namespace Village

theorem getD_set_self {α : Type} (l : List α) (i : Nat) (a d : α) (h : i < l.length) :
    (l.set i a).getD i d = a := by
  induction l generalizing i with
  | nil => simp at h
  | cons x xs ih =>
    cases i with
    | zero => simp
    | succ i =>
      rw [List.set_cons_succ, List.getD_cons_succ]
      exact ih i (by simpa using h)

theorem getD_set_ne {α : Type} (l : List α) (i j : Nat) (a d : α) (h : i ≠ j) :
    (l.set i a).getD j d = l.getD j d := by
  induction l generalizing i j with
  | nil => simp [List.set]
  | cons x xs ih =>
    cases i with
    | zero =>
      cases j with
      | zero => exact absurd rfl h
      | succ j => simp [List.getD_cons_succ]
    | succ i =>
      cases j with
      | zero => simp
      | succ j =>
        rw [List.set_cons_succ, List.getD_cons_succ, List.getD_cons_succ]
        exact ih i j (fun hh => h (by rw [hh]))

theorem getD_of_le {α : Type} (l : List α) (j : Nat) (d : α) (h : l.length ≤ j) :
    l.getD j d = d := by
  rw [List.getD_eq_getElem?_getD, List.getElem?_eq_none h]
  rfl

theorem getD_mem_of_lt {α : Type} (l : List α) (j : Nat) (d : α) (h : j < l.length) :
    l.getD j d ∈ l := by
  induction l generalizing j with
  | nil => simp at h
  | cons x xs ih =>
    cases j with
    | zero => simp
    | succ j =>
      rw [List.getD_cons_succ]
      exact List.mem_cons_of_mem _ (ih j (by simpa using h))

theorem exists_idx_of_mem {α : Type} {l : List α} {a : α} (d : α) (h : a ∈ l) :
    ∃ j, j < l.length ∧ l.getD j d = a := by
  induction l with
  | nil => simp at h
  | cons x xs ih =>
    rcases List.mem_cons.1 h with h1 | h2
    · exact ⟨0, by simp, by simp [h1]⟩
    · obtain ⟨j, hj, he⟩ := ih h2
      exact ⟨j + 1, by simpa using Nat.succ_lt_succ hj,
        by rw [List.getD_cons_succ]; exact he⟩

theorem mem_idxFrom_fst {l : List Resident} :
    ∀ {i : Nat} {p : Nat × Resident}, p ∈ idxFrom i l → i ≤ p.1 := by
  induction l with
  | nil => intro i p hp; simp [idxFrom] at hp
  | cons r rest ih =>
    intro i p hp
    rcases List.mem_cons.1 hp with h | h
    · rw [h]
    · exact Nat.le_of_succ_le (ih h)

theorem idxFrom_pairwise (l : List Resident) :
    ∀ i, (idxFrom i l).Pairwise (fun a b => a.1 < b.1) := by
  induction l with
  | nil => intro i; simp [idxFrom]
  | cons r rest ih =>
    intro i
    rw [idxFrom, List.pairwise_cons]
    exact ⟨fun p hp => Nat.lt_of_succ_le (mem_idxFrom_fst hp), ih (i + 1)⟩

theorem mem_idxFrom {l : List Resident} :
    ∀ {i : Nat} {p : Nat × Resident}, p ∈ idxFrom i l →
    ∃ k, p.1 = i + k ∧ k < l.length ∧ l.getD k dflt = p.2 := by
  induction l with
  | nil => intro i p hp; simp [idxFrom] at hp
  | cons r rest ih =>
    intro i p hp
    rcases List.mem_cons.1 hp with h | h
    · exact ⟨0, by simp [h], by simp, by simp [h]⟩
    · obtain ⟨k, hk1, hk2, hk3⟩ := ih h
      exact ⟨k + 1, by omega, by simpa using Nat.succ_lt_succ hk2,
        by rw [List.getD_cons_succ]; exact hk3⟩

theorem idxFrom_mem (l : List Resident) :
    ∀ (i k : Nat), k < l.length → (i + k, l.getD k dflt) ∈ idxFrom i l := by
  induction l with
  | nil => intro i k hk; simp at hk
  | cons r rest ih =>
    intro i k hk
    cases k with
    | zero => simp [idxFrom]
    | succ k =>
      rw [idxFrom]
      refine List.mem_cons_of_mem _ ?_
      have := ih (i + 1) k (by simpa using hk)
      simpa [List.getD_cons_succ, Nat.add_assoc, Nat.add_comm 1 k] using this

theorem pyMinFold_cons (key : Nat × Resident → ℚ) (x y : Nat × Resident)
    (ys : List (Nat × Resident)) :
    pyMinFold key x (y :: ys) = pyMinFold key (if key y < key x then y else x) ys := rfl

theorem pyMinFold_mem (key : Nat × Resident → ℚ) :
    ∀ (xs : List (Nat × Resident)) (x : Nat × Resident),
    pyMinFold key x xs ∈ x :: xs := by
  intro xs
  induction xs with
  | nil => intro x; simp [pyMinFold]
  | cons y ys ih =>
    intro x
    rw [pyMinFold_cons]
    rcases List.mem_cons.1 (ih (if key y < key x then y else x)) with h | h
    · rw [h]; split <;> simp
    · simp [List.mem_cons_of_mem, h]

theorem pyMinFold_le (key : Nat × Resident → ℚ) :
    ∀ (xs : List (Nat × Resident)) (x : Nat × Resident),
    ∀ y ∈ x :: xs, key (pyMinFold key x xs) ≤ key y := by
  intro xs
  induction xs with
  | nil =>
    intro x y hy
    rcases List.mem_cons.1 hy with h | h
    · rw [h]; exact le_of_eq rfl
    · simp at h
  | cons z zs ih =>
    intro x y hy
    rw [pyMinFold_cons]
    have hf : key (pyMinFold key (if key z < key x then z else x) zs) ≤
        key (if key z < key x then z else x) :=
      ih _ _ (List.mem_cons_self _ _)
    rcases List.mem_cons.1 hy with h | h
    · rw [h]
      refine le_trans hf ?_
      split
      · exact le_of_lt (by assumption)
      · exact le_refl _
    · rcases List.mem_cons.1 h with h2 | h2
      · rw [h2]
        refine le_trans hf ?_
        split
        · exact le_refl _
        · exact le_of_not_lt (by assumption)
      · exact ih _ _ (List.mem_cons_of_mem _ h2)

theorem pyMinFold_first (key : Nat × Resident → ℚ) :
    ∀ (xs : List (Nat × Resident)) (x : Nat × Resident),
    (x :: xs).Pairwise (fun a b => a.1 < b.1) →
    ∀ y ∈ x :: xs, key y ≤ key (pyMinFold key x xs) →
    (pyMinFold key x xs).1 ≤ y.1 := by
  intro xs
  induction xs with
  | nil =>
    intro x _ y hy _
    rcases List.mem_cons.1 hy with h | h
    · rw [h]; exact le_refl _
    · simp at h
  | cons z zs ih =>
    intro x hp y hy hk
    have hxz : x.1 < z.1 := (List.pairwise_cons.1 hp).1 _ (List.mem_cons_self _ _)
    have hzp : (z :: zs).Pairwise (fun a b => a.1 < b.1) := (List.pairwise_cons.1 hp).2
    have hp' : ((if key z < key x then z else x) :: zs).Pairwise
        (fun a b => a.1 < b.1) := by
      rw [List.pairwise_cons]
      refine ⟨fun w hw => ?_, (List.pairwise_cons.1 hzp).2⟩
      split
      · exact (List.pairwise_cons.1 hzp).1 _ hw
      · exact (List.pairwise_cons.1 hp).1 _ (List.mem_cons_of_mem _ hw)
    rw [pyMinFold_cons] at hk ⊢
    have hminle : key (pyMinFold key (if key z < key x then z else x) zs) ≤
        key (if key z < key x then z else x) :=
      pyMinFold_le key zs _ _ (List.mem_cons_self _ _)
    rcases List.mem_cons.1 hy with h | h
    · subst h
      by_cases hc : key z < key y
      · rw [if_pos hc] at hk hminle
        exact absurd (lt_of_le_of_lt (le_trans hk hminle) hc) (lt_irrefl _)
      · rw [if_neg hc] at hk hp' ⊢
        exact ih y hp' y (List.mem_cons_self _ _) hk
    · rcases List.mem_cons.1 h with h2 | h2
      · subst h2
        by_cases hc : key y < key x
        · rw [if_pos hc] at hk hp' ⊢
          exact ih y hp' y (List.mem_cons_self _ _) hk
        · rw [if_neg hc] at hk hminle hp' ⊢
          have hxy : key x ≤ key y := le_of_not_lt hc
          have hx : key x ≤ key (pyMinFold key x zs) := le_trans hxy hk
          exact le_of_lt
            (lt_of_le_of_lt (ih x hp' x (List.mem_cons_self _ _) hx) hxz)
      · exact ih _ hp' y (List.mem_cons_of_mem _ h2) hk

theorem hasBarber_iff (rs : List Resident) :
    hasBarber rs = true ↔
    ∃ j, j < rs.length ∧ (rs.getD j dflt).isBarber = true := by
  constructor
  · intro h
    obtain ⟨r, hr, hb⟩ := List.any_eq_true.1 h
    obtain ⟨j, hj, he⟩ := exists_idx_of_mem dflt hr
    exact ⟨j, hj, by rw [he]; exact hb⟩
  · rintro ⟨j, hj, hb⟩
    exact List.any_eq_true.2 ⟨_, getD_mem_of_lt rs j dflt hj, hb⟩

theorem gns_isSome {rs : List Resident} (h : rs ≠ []) :
    ∃ i, get_next_shave rs = some i := by
  rcases rs with _ | ⟨r, rest⟩
  · exact absurd rfl h
  · exact ⟨_, rfl⟩

theorem gns_eq_spec {rs : List Resident} {i : Nat}
    (h : get_next_shave rs = some i) :
    i < rs.length ∧
    (∀ j, j < rs.length →
      (rs.getD i dflt).get_next_shave_time ≤ (rs.getD j dflt).get_next_shave_time) ∧
    (∀ j, j < i →
      (rs.getD i dflt).get_next_shave_time < (rs.getD j dflt).get_next_shave_time) := by
  rcases hE : idxFrom 0 rs with _ | ⟨x, xs⟩
  · rw [get_next_shave, hE] at h
    simp [pyMinIdx] at h
  · rw [get_next_shave, hE] at h
    simp only [pyMinIdx, Option.some.injEq] at h
    have hmem : pyMinFold (fun p => p.2.get_next_shave_time) x xs ∈ idxFrom 0 rs := by
      rw [hE]; exact pyMinFold_mem _ xs x
    obtain ⟨k, hk1, hk2, hk3⟩ := mem_idxFrom hmem
    have hik : i = k := by omega
    subst hik
    have hgetd : rs.getD i dflt =
        (pyMinFold (fun p => p.2.get_next_shave_time) x xs).2 := hk3
    refine ⟨hk2, ?_, ?_⟩
    · intro j hj
      have hjmem : (j, rs.getD j dflt) ∈ idxFrom 0 rs := by
        have := idxFrom_mem rs 0 j hj
        simpa using this
      rw [hE] at hjmem
      have := pyMinFold_le (fun p => p.2.get_next_shave_time) xs x _ hjmem
      rw [hgetd]
      exact this
    · intro j hj
      by_contra hcon
      have hle : (rs.getD j dflt).get_next_shave_time ≤
          (rs.getD i dflt).get_next_shave_time := le_of_not_lt hcon
      have hjmem : (j, rs.getD j dflt) ∈ idxFrom 0 rs := by
        have := idxFrom_mem rs 0 j (lt_trans hj hk2)
        simpa using this
      rw [hE] at hjmem
      have hpw : (x :: xs).Pairwise (fun a b => a.1 < b.1) := by
        rw [← hE]; exact idxFrom_pairwise rs 0
      have := pyMinFold_first (fun p => p.2.get_next_shave_time) xs x hpw _ hjmem
        (by rw [hgetd] at hle; exact hle)
      omega

theorem gnfb_isSome {rs : List Resident} (h : hasBarber rs = true) :
    ∃ b, get_next_free_barber rs = some b := by
  obtain ⟨j, hj, hb⟩ := (hasBarber_iff rs).1 h
  have hmem : (j, rs.getD j dflt) ∈
      (idxFrom 0 rs).filter (fun p => p.2.isBarber) := by
    refine List.mem_filter.2 ⟨?_, hb⟩
    have := idxFrom_mem rs 0 j hj
    simpa using this
  rcases hF : (idxFrom 0 rs).filter (fun p => p.2.isBarber) with _ | ⟨x, xs⟩
  · rw [hF] at hmem; simp at hmem
  · exact ⟨(pyMinFold (fun p => p.2.busy_till) x xs).1,
      by rw [get_next_free_barber, hF]; rfl⟩

theorem gnfb_none_of_no_barber {rs : List Resident} (h : hasBarber rs = false) :
    get_next_free_barber rs = none := by
  have hnone : (idxFrom 0 rs).filter (fun p => p.2.isBarber) = [] := by
    rw [List.filter_eq_nil_iff]
    intro p hp hb
    obtain ⟨k, hk1, hk2, hk3⟩ := mem_idxFrom hp
    have : hasBarber rs = true :=
      (hasBarber_iff rs).2 ⟨k, hk2, by rw [hk3]; exact hb⟩
    rw [h] at this
    exact Bool.false_ne_true this
  rw [get_next_free_barber, hnone]
  rfl

theorem gnfb_eq_spec {rs : List Resident} {b : Nat}
    (h : get_next_free_barber rs = some b) :
    b < rs.length ∧ (rs.getD b dflt).isBarber = true ∧
    (∀ j, j < rs.length → (rs.getD j dflt).isBarber = true →
      (rs.getD b dflt).busy_till ≤ (rs.getD j dflt).busy_till) ∧
    (∀ j, j < b → (rs.getD j dflt).isBarber = true →
      (rs.getD b dflt).busy_till < (rs.getD j dflt).busy_till) := by
  rcases hF : (idxFrom 0 rs).filter (fun p => p.2.isBarber) with _ | ⟨x, xs⟩
  · rw [get_next_free_barber, hF] at h
    simp [pyMinIdx] at h
  · rw [get_next_free_barber, hF] at h
    simp only [pyMinIdx, Option.some.injEq] at h
    have hmem : pyMinFold (fun p => p.2.busy_till) x xs ∈
        (idxFrom 0 rs).filter (fun p => p.2.isBarber) := by
      rw [hF]; exact pyMinFold_mem _ xs x
    have hmem2 := List.mem_filter.1 hmem
    obtain ⟨k, hk1, hk2, hk3⟩ := mem_idxFrom hmem2.1
    have hbk : b = k := by omega
    subst hbk
    have hgetd : rs.getD b dflt = (pyMinFold (fun p => p.2.busy_till) x xs).2 := hk3
    refine ⟨hk2, by rw [hgetd]; exact hmem2.2, ?_, ?_⟩
    · intro j hj hbj
      have hjmem : (j, rs.getD j dflt) ∈
          (idxFrom 0 rs).filter (fun p => p.2.isBarber) := by
        refine List.mem_filter.2 ⟨?_, hbj⟩
        have := idxFrom_mem rs 0 j hj
        simpa using this
      rw [hF] at hjmem
      have := pyMinFold_le (fun p => p.2.busy_till) xs x _ hjmem
      rw [hgetd]
      exact this
    · intro j hj hbj
      by_contra hcon
      have hle : (rs.getD j dflt).busy_till ≤ (rs.getD b dflt).busy_till :=
        le_of_not_lt hcon
      have hjmem : (j, rs.getD j dflt) ∈
          (idxFrom 0 rs).filter (fun p => p.2.isBarber) := by
        refine List.mem_filter.2 ⟨?_, hbj⟩
        have := idxFrom_mem rs 0 j (lt_trans hj hk2)
        simpa using this
      rw [hF] at hjmem
      have hpw : (x :: xs).Pairwise (fun a b => a.1 < b.1) := by
        rw [← hF]
        exact List.Pairwise.sublist (List.filter_sublist _) (idxFrom_pairwise rs 0)
      have := pyMinFold_first (fun p => p.2.busy_till) xs x hpw _ hjmem
        (by rw [hgetd] at hle; exact hle)
      omega

theorem setBusy_isBarber (r : Resident) (u : ℚ) :
    (r.setBusy u).isBarber = r.isBarber := by
  rcases hr : r.barberState with _ | b <;>
    simp [Resident.setBusy, Resident.isBarber, hr]

theorem setBusy_shave_time (r : Resident) (u : ℚ) :
    (r.setBusy u).shave_time = r.shave_time := by
  rcases hr : r.barberState with _ | b <;>
    simp [Resident.setBusy, Resident.shave_time, hr]

theorem setBusy_busy (r : Resident) (u : ℚ) (h : r.isBarber = true) :
    (r.setBusy u).busy_till = u := by
  rcases hr : r.barberState with _ | b
  · rw [Resident.isBarber, hr] at h
    simp at h
  · simp [Resident.setBusy, Resident.busy_till, hr]

theorem shave_unfold (rs : List Resident) (bi ri : Nat) (t : ℚ) :
    (shave rs bi ri t).1 =
      (rs.set bi ((rs.getD bi dflt).setBusy (t + (rs.getD bi dflt).shave_time))).set ri
        (((rs.set bi ((rs.getD bi dflt).setBusy
            (t + (rs.getD bi dflt).shave_time))).getD ri dflt).set_last_shave_time
          (t + (rs.getD bi dflt).shave_time)) := rfl

theorem shave_ev (rs : List Resident) (bi ri : Nat) (t : ℚ) :
    (shave rs bi ri t).2 =
      ⟨t, (rs.getD bi dflt).name, (rs.getD ri dflt).name, decide (ri = bi),
        decide (t ≠ (rs.getD ri dflt).get_next_shave_time)⟩ := rfl

theorem shave_length (rs : List Resident) (bi ri : Nat) (t : ℚ) :
    (shave rs bi ri t).1.length = rs.length := by
  rw [shave_unfold, List.length_set, List.length_set]

theorem shave_pres {γ : Type} (f : Resident → γ)
    (hf1 : ∀ r u, f (r.setBusy u) = f r)
    (hf2 : ∀ r u, f (r.set_last_shave_time u) = f r)
    (rs : List Resident) (bi ri : Nat) (t : ℚ) (j : Nat) :
    f ((shave rs bi ri t).1.getD j dflt) = f (rs.getD j dflt) := by
  rw [shave_unfold]
  have hpre : ∀ k : Nat,
      f ((rs.set bi ((rs.getD bi dflt).setBusy
          (t + (rs.getD bi dflt).shave_time))).getD k dflt) = f (rs.getD k dflt) := by
    intro k
    by_cases hb : bi = k
    · subst hb
      by_cases hlt : bi < rs.length
      · rw [getD_set_self rs bi _ dflt hlt, hf1]
      · rw [getD_of_le _ bi dflt (by rw [List.length_set]; omega),
          getD_of_le rs bi dflt (by omega)]
    · rw [getD_set_ne rs bi k _ dflt hb]
  by_cases hj : ri = j
  · subst hj
    by_cases hlt : ri < rs.length
    · rw [getD_set_self _ ri _ dflt (by rw [List.length_set]; exact hlt), hf2]
      exact hpre ri
    · rw [getD_of_le _ ri dflt (by rw [List.length_set, List.length_set]; omega),
        getD_of_le rs ri dflt (by omega)]
  · rw [getD_set_ne _ ri j _ dflt hj]
    exact hpre j

theorem shave_isBarber (rs : List Resident) (bi ri : Nat) (t : ℚ) (j : Nat) :
    ((shave rs bi ri t).1.getD j dflt).isBarber = (rs.getD j dflt).isBarber :=
  shave_pres Resident.isBarber setBusy_isBarber (fun _ _ => rfl) rs bi ri t j

theorem shave_growth (rs : List Resident) (bi ri : Nat) (t : ℚ) (j : Nat) :
    ((shave rs bi ri t).1.getD j dflt).beard_growth_time =
      (rs.getD j dflt).beard_growth_time :=
  shave_pres Resident.beard_growth_time (fun _ _ => rfl) (fun _ _ => rfl) rs bi ri t j

theorem shave_st (rs : List Resident) (bi ri : Nat) (t : ℚ) (j : Nat) :
    ((shave rs bi ri t).1.getD j dflt).shave_time = (rs.getD j dflt).shave_time :=
  shave_pres Resident.shave_time setBusy_shave_time (fun _ _ => rfl) rs bi ri t j

theorem shave_last_at (rs : List Resident) (bi ri : Nat) (t : ℚ)
    (hri : ri < rs.length) :
    ((shave rs bi ri t).1.getD ri dflt).last_shave_time =
      t + (rs.getD bi dflt).shave_time := by
  rw [shave_unfold, getD_set_self _ ri _ dflt (by rw [List.length_set]; exact hri)]
  rfl

theorem shave_last_other (rs : List Resident) (bi ri : Nat) (t : ℚ) (j : Nat)
    (hj : j ≠ ri) :
    ((shave rs bi ri t).1.getD j dflt).last_shave_time =
      (rs.getD j dflt).last_shave_time := by
  rw [shave_unfold, getD_set_ne _ ri j _ dflt (fun hh => hj hh.symm)]
  by_cases hb : bi = j
  · subst hb
    by_cases hlt : bi < rs.length
    · rw [getD_set_self rs bi _ dflt hlt]
      rfl
    · rw [getD_of_le _ bi dflt (by rw [List.length_set]; omega),
        getD_of_le rs bi dflt (by omega)]
  · rw [getD_set_ne rs bi j _ dflt hb]

theorem shave_busy_at (rs : List Resident) (bi ri : Nat) (t : ℚ)
    (hbi : bi < rs.length) (hb : (rs.getD bi dflt).isBarber = true) :
    ((shave rs bi ri t).1.getD bi dflt).busy_till =
      t + (rs.getD bi dflt).shave_time := by
  rw [shave_unfold]
  by_cases hj : ri = bi
  · subst hj
    rw [getD_set_self _ ri _ dflt (by rw [List.length_set]; exact hbi)]
    show ((rs.set ri ((rs.getD ri dflt).setBusy _)).getD ri dflt).busy_till = _
    rw [getD_set_self rs ri _ dflt hbi, setBusy_busy _ _ hb]
  · rw [getD_set_ne _ ri bi _ dflt hj, getD_set_self rs bi _ dflt hbi,
      setBusy_busy _ _ hb]

theorem shave_busy_other (rs : List Resident) (bi ri : Nat) (t : ℚ) (j : Nat)
    (hj : j ≠ bi) :
    ((shave rs bi ri t).1.getD j dflt).busy_till = (rs.getD j dflt).busy_till := by
  rw [shave_unfold]
  by_cases hr : ri = j
  · subst hr
    by_cases hlt : ri < rs.length
    · rw [getD_set_self _ ri _ dflt (by rw [List.length_set]; exact hlt)]
      show ((rs.set bi _).getD ri dflt).busy_till = _
      rw [getD_set_ne rs bi ri _ dflt (fun hh => hj hh.symm)]
    · rw [getD_of_le _ ri dflt (by rw [List.length_set, List.length_set]; omega),
        getD_of_le rs ri dflt (by omega)]
  · rw [getD_set_ne _ ri j _ dflt hr, getD_set_ne rs bi j _ dflt (fun hh => hj hh.symm)]

theorem step_eq (rs : List Resident) {ri bi : Nat}
    (h1 : get_next_shave rs = some ri) (h2 : get_next_free_barber rs = some bi) :
    step rs = .ok (shave rs bi ri
      (max (rs.getD ri dflt).get_next_shave_time (rs.getD bi dflt).busy_till)) := by
  simp only [step, h1, h2]

theorem step_no_barber (rs : List Resident) (h : hasBarber rs = false) :
    step rs = .error (PyErr.valueError emptySeqMsg) := by
  rcases h1 : get_next_shave rs with _ | i
  · simp only [step, h1]
  · simp only [step, h1, gnfb_none_of_no_barber h]

theorem step_ok_inv {rs rs' : List Resident} {ev : ShaveEvent}
    (h : step rs = .ok (rs', ev)) :
    ∃ ri bi, get_next_shave rs = some ri ∧ get_next_free_barber rs = some bi ∧
      (rs', ev) = shave rs bi ri
        (max (rs.getD ri dflt).get_next_shave_time (rs.getD bi dflt).busy_till) := by
  rcases h1 : get_next_shave rs with _ | ri
  · rw [step, h1] at h
    simp at h
  · rcases h2 : get_next_free_barber rs with _ | bi
    · simp only [step, h1, h2] at h
      exact Except.noConfusion h
    · refine ⟨ri, bi, rfl, rfl, ?_⟩
      rw [step_eq rs h1 h2] at h
      exact (Except.ok.inj h).symm

theorem step_preserves_hasBarber {rs rs' : List Resident} {ev : ShaveEvent}
    (h : step rs = .ok (rs', ev)) (hb : hasBarber rs = true) :
    hasBarber rs' = true := by
  obtain ⟨ri, bi, h1, h2, h3⟩ := step_ok_inv h
  obtain ⟨j, hj, hjb⟩ := (hasBarber_iff rs).1 hb
  have hrs' : rs' = (shave rs bi ri _).1 := congrArg Prod.fst h3
  refine (hasBarber_iff rs').2 ⟨j, ?_, ?_⟩
  · rw [hrs', shave_length]
    exact hj
  · rw [hrs', shave_isBarber]
    exact hjb

theorem step_preserves_length {rs rs' : List Resident} {ev : ShaveEvent}
    (h : step rs = .ok (rs', ev)) : rs'.length = rs.length := by
  obtain ⟨ri, bi, h1, h2, h3⟩ := step_ok_inv h
  have hrs' : rs' = (shave rs bi ri _).1 := congrArg Prod.fst h3
  rw [hrs', shave_length]

theorem runLoop_zero (intr : Option Nat) (rs : List Resident)
    (es : List ShaveEvent) (i : Nat) :
    runLoop intr rs es i 0 = .ok (rs, es) := rfl

theorem runLoop_succ (intr : Option Nat) (rs : List Resident)
    (es : List ShaveEvent) (i fuel : Nat) :
    runLoop intr rs es i (fuel + 1) =
      if intr = some i then .ok (rs, es)
      else
        match step rs with
        | .error e => .error e
        | .ok (rs', ev) => runLoop intr rs' (es ++ [ev]) (i + 1) fuel := rfl

theorem runLoop_ok :
    ∀ (n : Nat) (rs : List Resident) (es : List ShaveEvent) (i : Nat),
    hasBarber rs = true →
    ∃ rs' evs, runLoop none rs es i n = .ok (rs', es ++ evs) ∧ evs.length = n ∧
      hasBarber rs' = true := by
  intro n
  induction n with
  | zero =>
    intro rs es i hb
    exact ⟨rs, [], by simp [runLoop_zero], rfl, hb⟩
  | succ n ih =>
    intro rs es i hb
    have hne : rs ≠ [] := by
      obtain ⟨r, hr, _⟩ := List.any_eq_true.1 hb
      exact List.ne_nil_of_mem hr
    obtain ⟨ri, h1⟩ := gns_isSome hne
    obtain ⟨bi, h2⟩ := gnfb_isSome hb
    have hstep := step_eq rs h1 h2
    rcases hp : shave rs bi ri
        (max (rs.getD ri dflt).get_next_shave_time (rs.getD bi dflt).busy_till)
      with ⟨rsn, ev⟩
    rw [hp] at hstep
    have hbn : hasBarber rsn = true := step_preserves_hasBarber hstep hb
    obtain ⟨rs', evs, hrun, hlen, hb2⟩ := ih rsn (es ++ [ev]) (i + 1) hbn
    refine ⟨rs', ev :: evs, ?_, by simp [hlen], hb2⟩
    rw [runLoop_succ, if_neg (by simp), hstep]
    simpa [List.append_assoc] using hrun

theorem runLoop_shift :
    ∀ (n : Nat) (rs : List Resident) (es : List ShaveEvent) (i i' : Nat),
    runLoop none rs es i n = runLoop none rs es i' n := by
  intro n
  induction n with
  | zero => intro rs es i i'; rfl
  | succ n ih =>
    intro rs es i i'
    rw [runLoop_succ, runLoop_succ, if_neg (by simp), if_neg (by simp)]
    cases h : step rs with
    | error e => rfl
    | ok p =>
      obtain ⟨rsn, ev⟩ := p
      exact ih rsn (es ++ [ev]) (i + 1) (i' + 1)

theorem runLoop_acc :
    ∀ (n : Nat) (rs : List Resident) (es : List ShaveEvent) (i : Nat),
    runLoop none rs es i n =
      Except.map (fun p => (p.1, es ++ p.2)) (runLoop none rs [] i n) := by
  intro n
  induction n with
  | zero => intro rs es i; simp [runLoop_zero, Except.map]
  | succ n ih =>
    intro rs es i
    rw [runLoop_succ, runLoop_succ, if_neg (by simp), if_neg (by simp)]
    cases h : step rs with
    | error e => rfl
    | ok p =>
      obtain ⟨rsn, ev⟩ := p
      show runLoop none rsn (es ++ [ev]) (i + 1) n =
        Except.map (fun p => (p.1, es ++ p.2))
          (runLoop none rsn ([] ++ [ev]) (i + 1) n)
      rw [ih rsn (es ++ [ev]) (i + 1), ih rsn ([] ++ [ev]) (i + 1)]
      cases hR : runLoop none rsn [] (i + 1) n <;>
        simp [Except.map, List.append_assoc]

theorem runLoop_intr :
    ∀ (j i fuel : Nat) (rs : List Resident) (es : List ShaveEvent),
    j < fuel →
    runLoop (some (i + j)) rs es i fuel = runLoop none rs es i j := by
  intro j
  induction j with
  | zero =>
    intro i fuel rs es hf
    rcases fuel with _ | f
    · omega
    · rw [runLoop_succ, if_pos (by simp), runLoop_zero]
  | succ j ih =>
    intro i fuel rs es hf
    rcases fuel with _ | f
    · omega
    · rw [runLoop_succ, runLoop_succ,
        if_neg (by simp only [Option.some.injEq]; omega), if_neg (by simp)]
      cases h : step rs with
      | error e => rfl
      | ok p =>
        obtain ⟨rsn, ev⟩ := p
        show runLoop (some (i + (j + 1))) rsn (es ++ [ev]) (i + 1) f =
          runLoop none rsn (es ++ [ev]) (i + 1) j
        have hshift : i + (j + 1) = (i + 1) + j := by omega
        rw [hshift]
        exact ih (i + 1) f rsn (es ++ [ev]) (by omega)

theorem AllPos_iff (rs : List Resident) :
    AllPos rs = true ↔
    ∀ r ∈ rs, 0 < r.beard_growth_time ∧ (r.isBarber = true → 0 < r.shave_time) := by
  rw [AllPos, List.all_eq_true]
  simp only [decide_eq_true_eq]

theorem AllPos_idx {rs : List Resident} (h : AllPos rs = true) {j : Nat}
    (hj : j < rs.length) :
    0 < (rs.getD j dflt).beard_growth_time ∧
      ((rs.getD j dflt).isBarber = true → 0 < (rs.getD j dflt).shave_time) :=
  (AllPos_iff rs).1 h _ (getD_mem_of_lt rs j dflt hj)

theorem step_preserves_AllPos {rs rs' : List Resident} {ev : ShaveEvent}
    (h : step rs = .ok (rs', ev)) (hp : AllPos rs = true) :
    AllPos rs' = true := by
  obtain ⟨ri, bi, h1, h2, h3⟩ := step_ok_inv h
  have hrs' : rs' = (shave rs bi ri
      (max (rs.getD ri dflt).get_next_shave_time (rs.getD bi dflt).busy_till)).1 :=
    congrArg Prod.fst h3
  rw [AllPos_iff]
  intro r hr
  obtain ⟨j, hj, he⟩ := exists_idx_of_mem dflt hr
  have hj' : j < rs.length := by
    rw [hrs', shave_length] at hj
    exact hj
  rw [← he, hrs', shave_growth, shave_isBarber, shave_st]
  exact AllPos_idx hp hj'

theorem step_mono {rs rs' : List Resident} {ev : ShaveEvent}
    (hp : AllPos rs = true) (h : step rs = .ok (rs', ev)) :
    ∀ j, (rs.getD j dflt).last_shave_time ≤ (rs'.getD j dflt).last_shave_time ∧
         (rs.getD j dflt).busy_till ≤ (rs'.getD j dflt).busy_till := by
  obtain ⟨ri, bi, h1, h2, h3⟩ := step_ok_inv h
  obtain ⟨hri, hmin, hfirst⟩ := gns_eq_spec h1
  obtain ⟨hbi, hbarb, hbmin, hbfirst⟩ := gnfb_eq_spec h2
  have hrs' : rs' = (shave rs bi ri
      (max (rs.getD ri dflt).get_next_shave_time (rs.getD bi dflt).busy_till)).1 :=
    congrArg Prod.fst h3
  have hst : 0 < (rs.getD bi dflt).shave_time := (AllPos_idx hp hbi).2 hbarb
  have hgrow : 0 < (rs.getD ri dflt).beard_growth_time := (AllPos_idx hp hri).1
  have htdue : (rs.getD ri dflt).get_next_shave_time ≤
      max (rs.getD ri dflt).get_next_shave_time (rs.getD bi dflt).busy_till :=
    le_max_left _ _
  have htbusy : (rs.getD bi dflt).busy_till ≤
      max (rs.getD ri dflt).get_next_shave_time (rs.getD bi dflt).busy_till :=
    le_max_right _ _
  have hdue : (rs.getD ri dflt).last_shave_time <
      (rs.getD ri dflt).get_next_shave_time := by
    rw [Resident.get_next_shave_time]
    linarith
  intro j
  constructor
  · by_cases hj : j = ri
    · subst hj
      rw [hrs', shave_last_at rs bi j _ hri]
      linarith
    · rw [hrs', shave_last_other rs bi ri _ j hj]
  · by_cases hj : j = bi
    · subst hj
      rw [hrs', shave_busy_at rs j ri _ hbi hbarb]
      linarith
    · rw [hrs', shave_busy_other rs bi ri _ j hj]

theorem step_strict {rs rs' : List Resident} {ev : ShaveEvent}
    (hp : AllPos rs = true) (h : step rs = .ok (rs', ev)) :
    ∃ ri bi, get_next_shave rs = some ri ∧ get_next_free_barber rs = some bi ∧
      (rs.getD ri dflt).last_shave_time < (rs'.getD ri dflt).last_shave_time ∧
      (rs.getD bi dflt).busy_till < (rs'.getD bi dflt).busy_till := by
  obtain ⟨ri, bi, h1, h2, h3⟩ := step_ok_inv h
  obtain ⟨hri, hmin, hfirst⟩ := gns_eq_spec h1
  obtain ⟨hbi, hbarb, hbmin, hbfirst⟩ := gnfb_eq_spec h2
  have hrs' : rs' = (shave rs bi ri
      (max (rs.getD ri dflt).get_next_shave_time (rs.getD bi dflt).busy_till)).1 :=
    congrArg Prod.fst h3
  have hst : 0 < (rs.getD bi dflt).shave_time := (AllPos_idx hp hbi).2 hbarb
  have hgrow : 0 < (rs.getD ri dflt).beard_growth_time := (AllPos_idx hp hri).1
  have htdue : (rs.getD ri dflt).get_next_shave_time ≤
      max (rs.getD ri dflt).get_next_shave_time (rs.getD bi dflt).busy_till :=
    le_max_left _ _
  have htbusy : (rs.getD bi dflt).busy_till ≤
      max (rs.getD ri dflt).get_next_shave_time (rs.getD bi dflt).busy_till :=
    le_max_right _ _
  have hdue : (rs.getD ri dflt).last_shave_time <
      (rs.getD ri dflt).get_next_shave_time := by
    rw [Resident.get_next_shave_time]
    linarith
  refine ⟨ri, bi, h1, h2, ?_, ?_⟩
  · rw [hrs', shave_last_at rs bi ri _ hri]
    linarith
  · rw [hrs', shave_busy_at rs bi ri _ hbi hbarb]
    linarith

theorem runLoop_mono :
    ∀ (n : Nat) (rs : List Resident) (es : List ShaveEvent) (i : Nat)
      (rs' : List Resident) (es' : List ShaveEvent),
    AllPos rs = true →
    runLoop none rs es i n = .ok (rs', es') →
    AllPos rs' = true ∧
    ∀ j, (rs.getD j dflt).last_shave_time ≤ (rs'.getD j dflt).last_shave_time ∧
         (rs.getD j dflt).busy_till ≤ (rs'.getD j dflt).busy_till := by
  intro n
  induction n with
  | zero =>
    intro rs es i rs' es' hp hrun
    rw [runLoop_zero] at hrun
    have hpair := Except.ok.inj hrun
    have h1 : rs = rs' := congrArg Prod.fst hpair
    subst h1
    exact ⟨hp, fun j => ⟨le_refl _, le_refl _⟩⟩
  | succ n ih =>
    intro rs es i rs' es' hp hrun
    rw [runLoop_succ, if_neg (by simp)] at hrun
    cases h : step rs with
    | error e =>
      rw [h] at hrun
      exact Except.noConfusion hrun
    | ok p =>
      obtain ⟨rsn, ev⟩ := p
      rw [h] at hrun
      have hpn := step_preserves_AllPos h hp
      obtain ⟨hp2, hmono⟩ := ih rsn (es ++ [ev]) (i + 1) rs' es' hpn hrun
      refine ⟨hp2, fun j => ?_⟩
      obtain ⟨ha, hb⟩ := step_mono hp h j
      obtain ⟨ha2, hb2⟩ := hmono j
      exact ⟨le_trans ha ha2, le_trans hb hb2⟩

theorem run_natCast (rs : List Resident) (count : Nat) (intr : Option Nat) :
    run rs (count : Int) intr = some (runLoop intr rs [] 0 count) := by
  rw [run.eq_def, if_neg (by omega), Int.toNat_natCast]

theorem runLoop_cons_step (rs : List Resident) {ri bi : Nat}
    (h1 : get_next_shave rs = some ri) (h2 : get_next_free_barber rs = some bi)
    (es : List ShaveEvent) (i n : Nat) :
    runLoop none rs es i (n + 1) =
      runLoop none
        (shave rs bi ri (max (rs.getD ri dflt).get_next_shave_time
          (rs.getD bi dflt).busy_till)).1
        (es ++ [(shave rs bi ri (max (rs.getD ri dflt).get_next_shave_time
          (rs.getD bi dflt).busy_till)).2])
        (i + 1) n := by
  rcases hp : shave rs bi ri
      (max (rs.getD ri dflt).get_next_shave_time (rs.getD bi dflt).busy_till)
    with ⟨rsn, ev⟩
  rw [runLoop_succ, if_neg (by simp), step_eq rs h1 h2, hp]

/-- Claim C1: for every barber index `bi`, resident index `ri` and time `t`,
after `shave` the barber's busy-till equals `t + shave_duration` and the
shaved resident's last-shave time equals that same new busy-till value
(never the raw event time `t`); this holds also in the degenerate case
`ri = bi`. -/
theorem shave_couples_updates (rs : List Resident) (bi ri : Nat) (t : ℚ)
    (hbi : bi < rs.length) (hri : ri < rs.length)
    (hb : (rs.getD bi dflt).isBarber = true) :
    ((shave rs bi ri t).1.getD bi dflt).busy_till =
      t + (rs.getD bi dflt).shave_time ∧
    ((shave rs bi ri t).1.getD ri dflt).last_shave_time =
      ((shave rs bi ri t).1.getD bi dflt).busy_till :=
  ⟨shave_busy_at rs bi ri t hbi hb,
   by rw [shave_busy_at rs bi ri t hbi hb, shave_last_at rs bi ri t hri]⟩

/-- Witness for C1 at the demo village, shaving r1 (index 0) by b1
(index 2) at time 7; also checked below in the self-shave case by C6. -/
theorem shave_couples_updates_witness :
    (2 < demoVillage.length ∧ 0 < demoVillage.length ∧
      (demoVillage.getD 2 dflt).isBarber = true) ∧
    (((shave demoVillage 2 0 7).1.getD 2 dflt).busy_till =
      7 + (demoVillage.getD 2 dflt).shave_time ∧
    ((shave demoVillage 2 0 7).1.getD 0 dflt).last_shave_time =
      ((shave demoVillage 2 0 7).1.getD 2 dflt).busy_till) :=
  ⟨⟨by decide, by decide, by decide⟩,
   shave_couples_updates demoVillage 2 0 7 (by decide) (by decide) (by decide)⟩

/-- Claim C2: for every village with at least one barber and every
non-negative count, `run count` performs exactly `count` shave events and
then returns normally. -/
theorem run_performs_count_events (rs : List Resident)
    (hb : hasBarber rs = true) (count : Nat) :
    ∃ rs' evs, run rs (count : Int) none = some (.ok (rs', evs)) ∧
      evs.length = count := by
  obtain ⟨rs', evs, hrun, hlen, hb2⟩ := runLoop_ok count rs [] 0 hb
  exact ⟨rs', evs, by rw [run_natCast, hrun, List.nil_append], hlen⟩

/-- Witness for C2: the demo village runs exactly 3 shave events. -/
theorem run_performs_count_events_witness :
    hasBarber demoVillage = true ∧
    ∃ rs' evs, run demoVillage ((3 : Nat) : Int) none = some (.ok (rs', evs)) ∧
      evs.length = 3 :=
  ⟨by decide, run_performs_count_events demoVillage (by decide) 3⟩

/-- Claim C3: with zero barbers in the collection, the free-barber lookup
fails with the explicit exhausted-selection error raised by the `min`
selection on its empty candidate sequence (ValueError: "min() arg is an
empty sequence", modelled as `none`, turned by `step` into an explicit
error value), not with an out-of-range empty-collection access. -/
theorem no_barber_selection_error (rs : List Resident)
    (h : hasBarber rs = false) :
    get_next_free_barber rs = none ∧
    step rs = .error (PyErr.valueError emptySeqMsg) :=
  ⟨gnfb_none_of_no_barber h, step_no_barber rs h⟩

/-- Witness for C3: a village holding a single plain resident. -/
theorem no_barber_selection_error_witness :
    hasBarber [Resident.init "r1" 2] = false ∧
    (get_next_free_barber [Resident.init "r1" 2] = none ∧
      step [Resident.init "r1" 2] = .error (PyErr.valueError emptySeqMsg)) :=
  ⟨by decide, no_barber_selection_error [Resident.init "r1" 2] (by decide)⟩

/-- Claim C8: for every village and any interrupt schedule, `run 0`
performs zero shave events and returns with the whole resident collection
(all names, growth times, last-shave times, shave durations and busy-till
values) unchanged. -/
theorem run_zero_noop (rs : List Resident) (intr : Option Nat) :
    run rs 0 intr = some (.ok (rs, [])) := by
  rw [run.eq_def, if_neg (by omega)]
  rfl

/-- Claim C4: on a non-empty collection, `get_next_shave` returns the
index of the resident minimising the next-shave time and (when a barber
exists) `get_next_free_barber` returns the index of the barber minimising
busy-till; both are functions of the collection state, and ties resolve
to the earliest-inserted (lowest-index) candidate. -/
theorem selection_argmin_first (rs : List Resident) (hne : rs ≠ []) :
    (∃ i, get_next_shave rs = some i ∧ i < rs.length ∧
      (∀ j, j < rs.length →
        (rs.getD i dflt).get_next_shave_time ≤
          (rs.getD j dflt).get_next_shave_time) ∧
      (∀ j, j < i →
        (rs.getD i dflt).get_next_shave_time <
          (rs.getD j dflt).get_next_shave_time)) ∧
    (hasBarber rs = true →
      ∃ b, get_next_free_barber rs = some b ∧ b < rs.length ∧
        (rs.getD b dflt).isBarber = true ∧
        (∀ j, j < rs.length → (rs.getD j dflt).isBarber = true →
          (rs.getD b dflt).busy_till ≤ (rs.getD j dflt).busy_till) ∧
        (∀ j, j < b → (rs.getD j dflt).isBarber = true →
          (rs.getD b dflt).busy_till < (rs.getD j dflt).busy_till)) := by
  constructor
  · obtain ⟨i, hi⟩ := gns_isSome hne
    obtain ⟨h1, h2, h3⟩ := gns_eq_spec hi
    exact ⟨i, hi, h1, h2, h3⟩
  · intro hb
    obtain ⟨b, hbeq⟩ := gnfb_isSome hb
    obtain ⟨h1, h2, h3, h4⟩ := gnfb_eq_spec hbeq
    exact ⟨b, hbeq, h1, h2, h3, h4⟩

/-- Witness for C4 at the demo village. -/
theorem selection_argmin_first_witness :
    demoVillage ≠ [] ∧
    ((∃ i, get_next_shave demoVillage = some i ∧ i < demoVillage.length ∧
      (∀ j, j < demoVillage.length →
        (demoVillage.getD i dflt).get_next_shave_time ≤
          (demoVillage.getD j dflt).get_next_shave_time) ∧
      (∀ j, j < i →
        (demoVillage.getD i dflt).get_next_shave_time <
          (demoVillage.getD j dflt).get_next_shave_time)) ∧
    (hasBarber demoVillage = true →
      ∃ b, get_next_free_barber demoVillage = some b ∧ b < demoVillage.length ∧
        (demoVillage.getD b dflt).isBarber = true ∧
        (∀ j, j < demoVillage.length → (demoVillage.getD j dflt).isBarber = true →
          (demoVillage.getD b dflt).busy_till ≤ (demoVillage.getD j dflt).busy_till) ∧
        (∀ j, j < b → (demoVillage.getD j dflt).isBarber = true →
          (demoVillage.getD b dflt).busy_till < (demoVillage.getD j dflt).busy_till))) :=
  ⟨by decide, selection_argmin_first demoVillage (by decide)⟩

/-- Claim C5: every iteration of the run loop selects the due resident and
the free barber, computes `time` as the max of the due time and the
barber's busy-till, performs exactly that one shave, and the remainder of
the run is the run of the remaining count from the post-shave state — no
other state change happens in the iteration. -/
theorem run_iteration_shape (rs : List Resident) (hb : hasBarber rs = true)
    (count : Nat) :
    ∃ ri bi, get_next_shave rs = some ri ∧ get_next_free_barber rs = some bi ∧
      ∃ rest,
        run (shave rs bi ri (max (rs.getD ri dflt).get_next_shave_time
          (rs.getD bi dflt).busy_till)).1 (count : Int) none = some rest ∧
        run rs ((count : Int) + 1) none = some (Except.map
          (fun q => (q.1, (shave rs bi ri
            (max (rs.getD ri dflt).get_next_shave_time
              (rs.getD bi dflt).busy_till)).2 :: q.2)) rest) := by
  have hne : rs ≠ [] := by
    obtain ⟨r, hr, _⟩ := List.any_eq_true.1 hb
    exact List.ne_nil_of_mem hr
  obtain ⟨ri, h1⟩ := gns_isSome hne
  obtain ⟨bi, h2⟩ := gnfb_isSome hb
  refine ⟨ri, bi, h1, h2,
    runLoop none (shave rs bi ri (max (rs.getD ri dflt).get_next_shave_time
      (rs.getD bi dflt).busy_till)).1 [] 0 count,
    run_natCast _ count none, ?_⟩
  have hc : ((count : Int) + 1) = (((count + 1 : Nat) : Int)) := by push_cast; ring
  rw [hc, run_natCast]
  congr 1
  rw [runLoop_cons_step rs h1 h2 [] 0 count,
    runLoop_shift count _ _ 1 0,
    runLoop_acc count _ ([] ++ [(shave rs bi ri
      (max (rs.getD ri dflt).get_next_shave_time
        (rs.getD bi dflt).busy_till)).2]) 0]
  cases hR : runLoop none (shave rs bi ri
      (max (rs.getD ri dflt).get_next_shave_time
        (rs.getD bi dflt).busy_till)).1 [] 0 count with
  | error e => rfl
  | ok q => simp [Except.map]

/-- Witness for C5 at the demo village with one further iteration. -/
theorem run_iteration_shape_witness :
    hasBarber demoVillage = true ∧
    (∃ ri bi, get_next_shave demoVillage = some ri ∧
      get_next_free_barber demoVillage = some bi ∧
      ∃ rest,
        run (shave demoVillage bi ri
          (max (demoVillage.getD ri dflt).get_next_shave_time
            (demoVillage.getD bi dflt).busy_till)).1 ((1 : Nat) : Int) none =
          some rest ∧
        run demoVillage (((1 : Nat) : Int) + 1) none = some (Except.map
          (fun q => (q.1, (shave demoVillage bi ri
            (max (demoVillage.getD ri dflt).get_next_shave_time
              (demoVillage.getD bi dflt).busy_till)).2 :: q.2)) rest)) :=
  ⟨by decide, run_iteration_shape demoVillage (by decide) 1⟩

/-- Claim C6: the shave event's "barber is late" flag is set if and only
if the scheduled time differs (direct equality comparison, no tolerance)
from the target's next-shave time at the moment of the shave, and the
self-shave flag is set if and only if the target is the performing barber
itself (index equality, modelling object identity). -/
theorem shave_flags (rs : List Resident) (bi ri : Nat) (t : ℚ)
    (_hri : ri < rs.length) :
    ((shave rs bi ri t).2.late = true ↔
      t ≠ (rs.getD ri dflt).get_next_shave_time) ∧
    ((shave rs bi ri t).2.selfShave = true ↔ ri = bi) := by
  rw [shave_ev]
  exact ⟨by simp, by simp⟩

/-- Witness for C6: the self-shave case (b1 shaves itself at time 5,
which is not its due time 6, so it is also late). -/
theorem shave_flags_witness :
    2 < demoVillage.length ∧
    (((shave demoVillage 2 2 5).2.late = true ↔
      (5 : ℚ) ≠ (demoVillage.getD 2 dflt).get_next_shave_time) ∧
    ((shave demoVillage 2 2 5).2.selfShave = true ↔ (2 : Nat) = 2)) :=
  ⟨by decide, shave_flags demoVillage 2 2 5 (by decide)⟩

/-- Claim C7: in the driver's village (r1 growth 2, r2 growth 4, barber
b1 growth 6 shave 1, clocks 0) the first run iteration selects r1
(index 0) and b1 (index 2), computes time `max(2, 0) = 2`, and after the
shave b1's busy-till is 3 and r1's last-shave time is 3, with the event
not flagged late since time 2 equals r1's due time exactly. -/
theorem demo_first_iteration :
    get_next_shave demoVillage = some 0 ∧
    get_next_free_barber demoVillage = some 2 ∧
    max (demoVillage.getD 0 dflt).get_next_shave_time
      (demoVillage.getD 2 dflt).busy_till = 2 ∧
    step demoVillage = .ok (shave demoVillage 2 0 2) ∧
    (shave demoVillage 2 0 2).2.time = 2 ∧
    ((shave demoVillage 2 0 2).1.getD 2 dflt).busy_till = 3 ∧
    ((shave demoVillage 2 0 2).1.getD 0 dflt).last_shave_time = 3 ∧
    (shave demoVillage 2 0 2).2.late = false ∧
    (shave demoVillage 2 0 2).2.selfShave = false := by
  have h1 : get_next_shave demoVillage = some 0 := by
    norm_num [get_next_shave, demoVillage, add_resident, idxFrom, pyMinIdx,
      pyMinFold, Resident.init, Barber.init, Resident.get_next_shave_time]
  have h2 : get_next_free_barber demoVillage = some 2 := by decide
  have hmax : max (demoVillage.getD 0 dflt).get_next_shave_time
      (demoVillage.getD 2 dflt).busy_till = 2 := by
    norm_num [demoVillage, add_resident, Resident.init, Barber.init,
      Resident.get_next_shave_time, Resident.busy_till]
  refine ⟨h1, h2, hmax, ?_, rfl, ?_, ?_, ?_, by decide⟩
  · rw [step_eq demoVillage h1 h2, hmax]
  · norm_num [shave, demoVillage, add_resident, Resident.init, Barber.init,
      Resident.busy_till, Resident.shave_time, Resident.setBusy,
      Resident.set_last_shave_time]
  · norm_num [shave, demoVillage, add_resident, Resident.init, Barber.init,
      Resident.busy_till, Resident.shave_time, Resident.setBusy,
      Resident.set_last_shave_time]
  · norm_num [shave, demoVillage, add_resident, Resident.init, Barber.init,
      Resident.get_next_shave_time]

/-- Claim C9: an interrupt signal scheduled at loop iteration `k` during
a run — including the unbounded `count = -1` run — makes the loop stop
with exactly the `k` already-completed steps and `run` return normally
(an `ok` result, no propagated error): the `KeyboardInterrupt` is caught
and cancellation is a normal termination path. -/
theorem run_interrupt_graceful (rs : List Resident) (hb : hasBarber rs = true)
    (k : Nat) (count : Int)
    (hcount : count = -1 ∨ (0 ≤ count ∧ (k : Int) < count)) :
    run rs count (some k) = some (runLoop none rs [] 0 k) ∧
    ∃ rs' evs, run rs count (some k) = some (.ok (rs', evs)) ∧
      evs.length = k := by
  have hloop : ∀ fuel, k < fuel →
      runLoop (some k) rs [] 0 fuel = runLoop none rs [] 0 k := by
    intro fuel hf
    have := runLoop_intr k 0 fuel rs [] hf
    simpa using this
  have hmain : run rs count (some k) = some (runLoop none rs [] 0 k) := by
    rcases hcount with hc | ⟨hc1, hc2⟩
    · subst hc
      rw [run.eq_def, if_pos rfl]
      exact congrArg some (hloop (k + 1) (by omega))
    · rw [run.eq_def, if_neg (by omega)]
      exact congrArg some (hloop count.toNat (by omega))
  refine ⟨hmain, ?_⟩
  obtain ⟨rs', evs, hrun, hlen, hb2⟩ := runLoop_ok k rs [] 0 hb
  exact ⟨rs', evs, by rw [hmain, hrun, List.nil_append], hlen⟩

/-- Witness for C9: the demo village run unboundedly, interrupted at
iteration 2. -/
theorem run_interrupt_graceful_witness :
    (hasBarber demoVillage = true ∧
      ((-1 : Int) = -1 ∨ (0 ≤ (-1 : Int) ∧ ((2 : Nat) : Int) < -1))) ∧
    (run demoVillage (-1) (some 2) = some (runLoop none demoVillage [] 0 2) ∧
      ∃ rs' evs, run demoVillage (-1) (some 2) = some (.ok (rs', evs)) ∧
        evs.length = 2) :=
  ⟨⟨by decide, Or.inl rfl⟩,
   run_interrupt_graceful demoVillage (by decide) 2 (-1) (Or.inl rfl)⟩

/-- Claim C10: when all beard growth times are strictly positive and all
barbers' shave durations are strictly positive, every shave step of the
run loop strictly increases the shaved resident's last-shave time and the
performing barber's busy-till, and across a whole bounded run every
resident's last-shave time and busy-till are monotonically non-decreasing
(the positivity invariant itself being preserved), even though
`set_last_shave_time` enforces no monotonicity. -/
theorem run_monotone_clocks (rs : List Resident) (hpos : AllPos rs = true) :
    (∀ rs' ev, step rs = .ok (rs', ev) →
      ∃ ri bi, get_next_shave rs = some ri ∧ get_next_free_barber rs = some bi ∧
        (rs.getD ri dflt).last_shave_time < (rs'.getD ri dflt).last_shave_time ∧
        (rs.getD bi dflt).busy_till < (rs'.getD bi dflt).busy_till) ∧
    (∀ (count : Nat) (rs' : List Resident) (evs : List ShaveEvent),
      run rs (count : Int) none = some (.ok (rs', evs)) →
      AllPos rs' = true ∧
      ∀ j, (rs.getD j dflt).last_shave_time ≤ (rs'.getD j dflt).last_shave_time ∧
           (rs.getD j dflt).busy_till ≤ (rs'.getD j dflt).busy_till) := by
  constructor
  · intro rs' ev h
    exact step_strict hpos h
  · intro count rs' evs hrun
    rw [run_natCast] at hrun
    exact runLoop_mono count rs [] 0 rs' evs hpos (Option.some.inj hrun)

/-- Witness for C10 at the demo village. -/
theorem run_monotone_clocks_witness :
    AllPos demoVillage = true ∧
    ((∀ rs' ev, step demoVillage = .ok (rs', ev) →
      ∃ ri bi, get_next_shave demoVillage = some ri ∧
        get_next_free_barber demoVillage = some bi ∧
        (demoVillage.getD ri dflt).last_shave_time <
          (rs'.getD ri dflt).last_shave_time ∧
        (demoVillage.getD bi dflt).busy_till <
          (rs'.getD bi dflt).busy_till) ∧
    (∀ (count : Nat) (rs' : List Resident) (evs : List ShaveEvent),
      run demoVillage (count : Int) none = some (.ok (rs', evs)) →
      AllPos rs' = true ∧
      ∀ j, (demoVillage.getD j dflt).last_shave_time ≤
            (rs'.getD j dflt).last_shave_time ∧
           (demoVillage.getD j dflt).busy_till ≤
            (rs'.getD j dflt).busy_till)) :=
  ⟨by decide, run_monotone_clocks demoVillage (by decide)⟩

end Village
